import Mathlib

/-!
Verification development for the BusTub-derived storage core:
a shallow embedding of `src/buffer/lru_k_replacer.cpp` (LRU-K frame replacer
and the B+Tree leaf page that shares that translation unit) and of
`src/unnamed/part_000` (the `BPlusTree` orchestrator), together with theorems
settling the specification's claims about them.

Conventions of the embedding:
* C++ `std::unordered_map<frame_id_t, LRUKNode>` is modelled as an association
  list `List (Int × LRUKNode)`; the list order stands in for the map's
  (unspecified) iteration order.  `operator[]` insertion appends at the end.
* C++ exceptions are modelled by a `Bool` "raised" flag returned next to the
  post-call state (the mutations performed before the `throw` are kept, as in
  the C++ code).
* Undefined behaviour (e.g. `history_.back()` on an empty list, or
  dereferencing past-the-end iterators) is modelled by an outer `Option`:
  `none` means the C++ execution has no defined result.
* Machine integers are modelled as `Int` (for `frame_id_t`, page ids and
  array indices) and `Nat` (for `size_t` timestamps and sizes).
-/

/-- A frame record of the replacer (`LRUKNode` in the C++ source):
its frame id, the ordered list of access timestamps (`push_back` appends at
the end, `back()` is the last element), and the evictable flag. -/
structure LRUKNode where
  fid : Int
  history : List Nat
  is_evictable : Bool
deriving Repr, DecidableEq

/-- State of `LRUKReplacer`: the node store (association list standing in for
the `unordered_map`), the global logical timestamp, the count of currently
evictable frames, the configured pool size and the `k` parameter.
The scalar fields are initialised to `0` at construction (their in-class
initialisers live in the header, which matches the spec's "timestamp
initialized at construction" design note). -/
structure LRUKReplacer where
  node_store : List (Int × LRUKNode)
  current_timestamp : Nat
  curr_size : Nat
  replacer_size : Nat
  k : Nat
deriving Repr, DecidableEq

namespace LRUKReplacer

/-- `node_store_.find(fid)`: the first (unique, in reachable states) entry
with the given key. -/
def storeFind : List (Int × LRUKNode) → Int → Option LRUKNode
  | [], _ => none
  | p :: t, fid => if p.1 = fid then some p.2 else storeFind t fid

/-- In-place mutation of the node stored under `fid`
(`node_store_[fid].field = ...`); every entry with that key is rewritten,
which coincides with the C++ map behaviour because keys are unique. -/
def storeModify : List (Int × LRUKNode) → Int → (LRUKNode → LRUKNode) → List (Int × LRUKNode)
  | [], _, _ => []
  | p :: t, fid, g => (if p.1 = fid then (p.1, g p.2) else p) :: storeModify t fid g

/-- `node_store_.erase(fid)`. -/
def storeErase : List (Int × LRUKNode) → Int → List (Int × LRUKNode)
  | [], _ => []
  | p :: t, fid => if p.1 = fid then storeErase t fid else p :: storeErase t fid

/-- The `LRUKReplacer(num_frames, k)` constructor: pre-registers frames
`0, …, num_frames − 1`, each with `fid_ = i` and `is_evictable_ = false`
(and an empty history, as default construction leaves it). -/
def new (num_frames k : Nat) : LRUKReplacer :=
  { node_store :=
      (List.range num_frames).map
        (fun (i : Nat) =>
          ((i : Int), { fid := (i : Int), history := [], is_evictable := false })),
    current_timestamp := 0,
    curr_size := 0,
    replacer_size := num_frames,
    k := k }

/-- `RecordAccess(frame_id)`.  Increments the timestamp, then throws
(`Bool` result `true`) when `static_cast<size_t>(frame_id) > replacer_size_`
— a negative `frame_id_t` wraps around to a huge unsigned value, hence also
throws; otherwise default-inserts a missing node and appends the timestamp
to the frame's history. -/
def RecordAccess (r : LRUKReplacer) (fid : Int) : Bool × LRUKReplacer :=
  let r := { r with current_timestamp := r.current_timestamp + 1 }
  if fid < 0 ∨ (r.replacer_size : Int) < fid then
    (true, r)
  else
    let r :=
      if (storeFind r.node_store fid).isNone then
        { r with node_store := r.node_store ++ [(fid, { fid := fid, history := [], is_evictable := false })] }
      else r
    let ns := storeModify r.node_store fid
      (fun n => { n with history := n.history ++ [r.current_timestamp] })
    (false, { r with node_store := ns })

/-- `SetEvictable(frame_id, set_evictable)`.  Throws (`true`) when the frame
is unknown; otherwise adjusts `curr_size_` on each flag transition and stores
the new flag. -/
def SetEvictable (r : LRUKReplacer) (fid : Int) (flag : Bool) : Bool × LRUKReplacer :=
  match storeFind r.node_store fid with
  | none => (true, r)
  | some n =>
    let size' :=
      if n.is_evictable ∧ ¬ flag then r.curr_size - 1
      else if ¬ n.is_evictable ∧ flag then r.curr_size + 1
      else r.curr_size
    let ns := storeModify r.node_store fid (fun m => { m with is_evictable := flag })
    (false, { r with curr_size := size', node_store := ns })

/-- `Remove(frame_id)`: no-op when unknown, otherwise decrements
`curr_size_` if the frame was evictable and erases it. -/
def Remove (r : LRUKReplacer) (fid : Int) : LRUKReplacer :=
  match storeFind r.node_store fid with
  | none => r
  | some n =>
    let size' := if n.is_evictable then r.curr_size - 1 else r.curr_size
    { r with curr_size := size', node_store := storeErase r.node_store fid }

/-- `Size()`. -/
def Size (r : LRUKReplacer) : Nat := r.curr_size

/-- The currently evictable entries of the node store. -/
def evictableNodes (r : LRUKReplacer) : List (Int × LRUKNode) :=
  r.node_store.filter (fun p => p.2.is_evictable)

/-- `infinitely_distanced_frames` built by `Evict`'s partition loop:
evictable frames with fewer than `k` recorded accesses (backward k-distance
`+∞`). -/
def infGroup (r : LRUKReplacer) : List (Int × LRUKNode) :=
  r.node_store.filter (fun p => p.2.is_evictable && decide (p.2.history.length < r.k))

/-- `evictable_frames` built by `Evict`'s partition loop: evictable frames
with at least `k` recorded accesses (finite backward k-distance). -/
def finGroup (r : LRUKReplacer) : List (Int × LRUKNode) :=
  r.node_store.filter (fun p => p.2.is_evictable && ! decide (p.2.history.length < r.k))

/-- The timestamp of a node's k-th most recent access
(`*std::next(history_.begin(), history_.size() - k)`); `none` when the
iterator is past-the-end (`k = 0` or fewer than `k` accesses: undefined
behaviour in the C++ code). -/
def kthStamp (k : Nat) (n : LRUKNode) : Option Nat :=
  n.history.get? (n.history.length - k)

/-- The selection loop over `infinitely_distanced_frames`: starting from the
incumbent `best` whose `history_.back()` is `bestBack`, replace it whenever a
frame's most recent access is strictly older.  `back()` on an empty history
is undefined behaviour (`none`). -/
def minByBackAux (best : Int × LRUKNode) (bestBack : Nat) :
    List (Int × LRUKNode) → Option (Int × LRUKNode)
  | [] => some best
  | p :: t =>
    match p.2.history.getLast? with
    | none => none
    | some s => if s < bestBack then minByBackAux p s t else minByBackAux best bestBack t

/-- The selection loop over `evictable_frames`: keeps the frame whose
backward k-distance `ts − kthStamp` is strictly largest (the first frame
always qualifies via the `frame_id == -1` seed test). -/
def maxByKthAux (ts k : Nat) (best : Int × LRUKNode) (bestDist : Nat) :
    List (Int × LRUKNode) → Option (Int × LRUKNode)
  | [] => some best
  | p :: t =>
    match kthStamp k p.2 with
    | none => none
    | some s =>
      if ts - s > bestDist then maxByKthAux ts k p (ts - s) t
      else maxByKthAux ts k best bestDist t

/-- The victim's post-eviction update: history cleared, marked non-evictable,
`curr_size_` decremented. -/
def clearVictim (r : LRUKReplacer) (fid : Int) : LRUKReplacer :=
  let ns := storeModify r.node_store fid
    (fun n => { n with history := [], is_evictable := false })
  { r with node_store := ns, curr_size := r.curr_size - 1 }

/-- `Evict()`.  Increments the timestamp, returns `none`-victim on an empty
store, otherwise partitions the evictable frames into the `+∞` and finite
k-distance groups and selects the victim as the C++ loops do.  The outer
`Option` is `none` exactly when the C++ code hits undefined behaviour
(`back()` on an empty history, or the `k = 0` past-the-end read). -/
def Evict (r : LRUKReplacer) : Option (Option Int × LRUKReplacer) :=
  let ts := r.current_timestamp + 1
  let r1 := { r with current_timestamp := ts }
  if r1.node_store.isEmpty then some (none, r1)
  else
    match infGroup r1 with
    | p :: t =>
      (match p.2.history.getLast? with
       | none => none
       | some s =>
         match minByBackAux p s t with
         | none => none
         | some m => some (some m.1, clearVictim r1 m.1))
    | [] =>
      match finGroup r1 with
      | [] => some (none, r1)
      | q :: t =>
        match kthStamp r1.k q.2 with
        | none => none
        | some s =>
          match maxByKthAux ts r1.k q (ts - s) t with
          | none => none
          | some m => some (some m.1, clearVictim r1 m.1)

/-- One external operation on the replacer, for stating properties of
arbitrary call sequences. -/
inductive Op where
  | record (fid : Int)
  | setEvictable (fid : Int) (flag : Bool)
  | evict
  | remove (fid : Int)
deriving Repr, DecidableEq

/-- Applies one operation; the state after a thrown exception is kept (the
caller can continue), while undefined behaviour in `Evict` yields `none`. -/
def applyOp (r : LRUKReplacer) : Op → Option LRUKReplacer
  | .record fid => some (RecordAccess r fid).2
  | .setEvictable fid flag => some (SetEvictable r fid flag).2
  | .evict => (Evict r).map Prod.snd
  | .remove fid => some (Remove r fid)

/-- Runs a sequence of operations from a state. -/
def runOps (r : LRUKReplacer) : List Op → Option LRUKReplacer
  | [] => some r
  | op :: ops =>
    match applyOp r op with
    | none => none
    | some r' => runOps r' ops

end LRUKReplacer

/-!
Leaf page (`B_PLUS_TREE_LEAF_PAGE_TYPE` in
`src/page/b_plus_tree_leaf_page.cpp`, second part of the same source file).
The fixed-size in-page arrays `key_array_` / `rid_array_` are modelled as
total functions `Nat → Int` (the capacity bound is abstracted away; slots at
or beyond `size` hold whatever junk is there).  Keys and record ids are both
modelled as `Int`, with the `GenericComparator` total order modelled by the
order on `Int`.
-/

/-- A leaf page: current size, maximum size, sibling link and the raw
key/value arrays. -/
structure BPlusTreeLeafPage where
  size : Nat
  max_size : Nat
  next_page_id : Int
  key_array : Nat → Int
  rid_array : Nat → Int

namespace BPlusTreeLeafPage

/-- `Init(max_size)`: sets the capacity and resets the size to zero (the page
type tag is implicit in the `Page` variant used below); array contents are
left as junk, modelled as all-zero fresh storage. -/
def Init (max_size : Nat) : BPlusTreeLeafPage :=
  { size := 0, max_size := max_size, next_page_id := 0,
    key_array := fun _ => 0, rid_array := fun _ => 0 }

/-- `GetNextPageId()`. -/
def GetNextPageId (L : BPlusTreeLeafPage) : Int := L.next_page_id

/-- `SetNextPageId(next_page_id)`. -/
def SetNextPageId (L : BPlusTreeLeafPage) (pid : Int) : BPlusTreeLeafPage :=
  { L with next_page_id := pid }

/-- `KeyAt(index)`: returns `key_array_[index]` with no bounds check
whatsoever; a negative index is undefined behaviour (`none`), any
non-negative index — even one at or past `size` — reads the raw slot. -/
def KeyAt (L : BPlusTreeLeafPage) (index : Int) : Option Int :=
  if 0 ≤ index then some (L.key_array index.toNat) else none

/-- `ValueAt(index)`: returns `rid_array_[index]` when
`0 ≤ index < GetSize()`, otherwise throws `std::out_of_range` (`none`). -/
def ValueAt (L : BPlusTreeLeafPage) (index : Int) : Option Int :=
  if 0 ≤ index ∧ index < (L.size : Int) then some (L.rid_array index.toNat) else none

/-- The binary-search loop shared by `LookUp` and `SetKeyAt`
(`low = 0, high = GetSize() - 1; while (low <= high) ...`), returning `none`
when an equal key is found and `some low` (the insertion point) when the loop
exits.  `fuel` bounds the number of iterations: the span `high − low + 1`
strictly decreases, so any `fuel > span` makes the `0` fallback unreachable
(`mid` is computed with natural division on the non-negative span, which
agrees with the C++ `low + (high - low) / 2`). -/
def bsearchAux (keys : Nat → Int) (key : Int) : Nat → Int → Int → Option Int
  | 0, low, _ => some low
  | fuel + 1, low, high =>
    if low ≤ high then
      let mid := low + (((high - low).toNat / 2 : Nat) : Int)
      if keys mid.toNat = key then none
      else if key < keys mid.toNat then bsearchAux keys key fuel low (mid - 1)
      else bsearchAux keys key fuel (mid + 1) high
    else some low

/-- The shift loop of `SetKeyAt`
(`for (int i = GetSize(); i > low; --i) arr[i] = arr[i - 1];`), modelled by
structural recursion on the loop counter. -/
def shiftRight (a : Nat → Int) (low : Nat) : Nat → (Nat → Int)
  | 0 => a
  | i + 1 =>
    if low < i + 1 then shiftRight (fun j => if j = i + 1 then a i else a j) low i
    else a

/-- `SetKeyAt(key, value, comparator)` — the leaf-level insert: binary search
for the insertion point, `false` without any mutation when an equal key
exists, otherwise shift the tail right, write the new pair at the insertion
point and grow the size by one. -/
def SetKeyAt (L : BPlusTreeLeafPage) (key value : Int) : Bool × BPlusTreeLeafPage :=
  match bsearchAux L.key_array key (L.size + 1) 0 ((L.size : Int) - 1) with
  | none => (false, L)
  | some low =>
    let lowN := low.toNat
    let ka := shiftRight L.key_array lowN L.size
    let ra := shiftRight L.rid_array lowN L.size
    let ka' := fun j => if j = lowN then key else ka j
    let ra' := fun j => if j = lowN then value else ra j
    (true, { L with size := L.size + 1, key_array := ka', rid_array := ra' })

/-- The `LookUp(key, comparator)` loop: binary search returning
`ValueAt(mid)` on an equal key (the probed `mid` always lies in
`[0, size)`, so the bounds check passes), `none` when absent. -/
def lookUpAux (L : BPlusTreeLeafPage) (key : Int) : Nat → Int → Int → Option Int
  | 0, _, _ => none
  | fuel + 1, low, high =>
    if low ≤ high then
      let mid := low + (((high - low).toNat / 2 : Nat) : Int)
      if L.key_array mid.toNat = key then ValueAt L mid
      else if L.key_array mid.toNat < key then lookUpAux L key fuel (mid + 1) high
      else lookUpAux L key fuel low (mid - 1)
    else none

/-- `LookUp(key, comparator)`. -/
def LookUp (L : BPlusTreeLeafPage) (key : Int) : Option Int :=
  lookUpAux L key (L.size + 1) 0 ((L.size : Int) - 1)

/-- Modelled from the spec: `IsOverflow()` is declared in the page header
(absent from the sources); per §4.2 it holds when the size exceeds the
maximum size. -/
def IsOverflow (L : BPlusTreeLeafPage) : Bool := L.max_size < L.size

/-- The live `(key, value)` entries of a leaf, in slot order. -/
def liveEntries (L : BPlusTreeLeafPage) : List (Int × Int) :=
  (List.range L.size).map (fun i => (L.key_array i, L.rid_array i))

end BPlusTreeLeafPage

/-!
The B+Tree orchestrator (`src/unnamed/part_000`).  Pages managed by the
buffer pool are modelled as a total map `Int → Page`; `NewPage()` hands out
ids from a counter.  `INVALID_PAGE_ID` (from the absent `common/config.h`)
is the usual BusTub sentinel `-1`.
-/

/-- Modelled from the spec: the empty-tree sentinel page id
(`INVALID_PAGE_ID` in the absent `common/config.h`). -/
def INVALID_PAGE_ID : Int := -1

/-- A buffer-pool page as interpreted through the typed views: a header page
(root pointer slot), a leaf page, an internal page (separator keys and child
page ids; its operations are spec-modelled since the internal-page source is
absent), or free/uninitialised storage. -/
inductive Page where
  | header (root_page_id : Int)
  | leaf (L : BPlusTreeLeafPage)
  | internal (keys : List Int) (children : List Int)
  | free

/-- The `BPlusTree` state: the `header_page_id_` member (which the code also
overwrites with the root leaf's id on first insert), the configured
`leaf_max_size_`, the page store of the buffer-pool collaborator and its
fresh-page counter. -/
structure BPlusTree where
  header_page_id : Int
  leaf_max_size : Nat
  pages : Int → Page
  next_page : Int

namespace BPlusTree

/-- The `BPlusTree` constructor: records its arguments and unconditionally
writes `INVALID_PAGE_ID` into the `root_page_id_` slot of the page named by
`header_page_id` (through `AsMut<BPlusTreeHeaderPage>`), whatever that page
held before. -/
def construct (header_page_id : Int) (leaf_max_size : Nat)
    (pages0 : Int → Page) (next0 : Int) : BPlusTree :=
  { header_page_id := header_page_id, leaf_max_size := leaf_max_size,
    pages := Function.update pages0 header_page_id (Page.header INVALID_PAGE_ID),
    next_page := next0 }

/-- `IsEmpty()`: compares the `header_page_id_` member itself (not the root
slot stored in the header page) against the sentinel. -/
def IsEmpty (t : BPlusTree) : Bool := t.header_page_id = INVALID_PAGE_ID

/-- `GetRootPageId()`: the code returns the constant `0`. -/
def GetRootPageId (_t : BPlusTree) : Int := 0

/-- Modelled from the spec: `InternalPage::Lookup(key, comparator)` (the
internal-page source is absent): the first separator key strictly greater
than `key` determines the boundary and the preceding child is chosen, i.e.
child number `#{separators ≤ key}`; `none` when the node is malformed (a
defensive structural failure). -/
def internalLookup (keys : List Int) (children : List Int) (key : Int) : Option Int :=
  children.get? (keys.countP (fun s => decide (s ≤ key)))

/-- The descent loop of `GetLeaf`: follows `Internal::Lookup` child pointers
until a leaf page is reached, returning its page id.  Interpreting a header
or free page as a tree page is undefined behaviour (`none`); `fuel` bounds
the modelled depth of the unbounded `while (true)` loop. -/
def getLeafAux (t : BPlusTree) (key : Int) : Nat → Int → Option Int
  | 0, _ => none
  | fuel + 1, pid =>
    match t.pages pid with
    | Page.leaf _ => some pid
    | Page.internal ks cs =>
      (match internalLookup ks cs key with
       | some child => getLeafAux t key fuel child
       | none => none)
    | _ => none

/-- `GetLeaf(key)`: `none` stands both for the C++ `nullptr` result on an
empty tree and for an undefined descent. -/
def GetLeaf (t : BPlusTree) (key : Int) : Option Int :=
  if IsEmpty t then none else getLeafAux t key 64 t.header_page_id

/-- `GetValue(key, result)`: `some none` is the C++ `false` (not found),
`some (some v)` is `true` with `v` pushed onto the result vector, and the
outer `none` is an undefined execution (e.g. the descent dereferencing a
non-tree page). -/
def GetValue (t : BPlusTree) (key : Int) : Option (Option Int) :=
  if IsEmpty t then some none
  else
    match GetLeaf t key with
    | none => none
    | some pid =>
      match t.pages pid with
      | Page.leaf L => some (L.LookUp key)
      | _ => none

/-- Modelled from the spec: `split(leaf)` is declared but absent from the
sources.  Following §4.4 for the only case its caller can reach in this
model (the overflowing leaf is the page the tree uses as its root): allocate
a new leaf, move the upper half of the entries into it, link it as the next
sibling, allocate a new root internal page holding the separator (the first
key of the new leaf) and the two leaves as children, and update the
persisted root pointer by writing the new root's id into the
`root_page_id_` slot of the page named by `header_page_id_` (the "single
persisted slot" of §3 — which at this point is the old leaf's own page).
Other shapes are left undefined (`none`). -/
def split (t : BPlusTree) (pid : Int) : Option BPlusTree :=
  if pid = t.header_page_id then
    match t.pages pid with
    | Page.leaf L =>
      let midIdx := L.size / 2
      let newLeafId := t.next_page
      let newRootId := t.next_page + 1
      let L2 : BPlusTreeLeafPage :=
        { size := L.size - midIdx, max_size := L.max_size,
          next_page_id := L.next_page_id,
          key_array := fun j => L.key_array (midIdx + j),
          rid_array := fun j => L.rid_array (midIdx + j) }
      let L1 : BPlusTreeLeafPage := { L with size := midIdx, next_page_id := newLeafId }
      let sep := L2.key_array 0
      let pages := Function.update t.pages pid (Page.leaf L1)
      let pages := Function.update pages newLeafId (Page.leaf L2)
      let pages := Function.update pages newRootId (Page.internal [sep] [pid, newLeafId])
      let pages := Function.update pages t.header_page_id (Page.header newRootId)
      some { t with pages := pages, next_page := t.next_page + 2 }
    | _ => none
  else none

/-- `Insert(key, value)`.  Empty tree: allocate a leaf, overwrite
`header_page_id_` with its id, `Init` it (the default `max_size` argument of
the absent header is modelled from the spec as the configured
`leaf_max_size`), insert the pair and return `true`.  Otherwise: descend to
the leaf, `SetKeyAt` into it (`false` on duplicate), `split` on overflow —
and then the code's final statement is `return 0;`, i.e. `false`, on this
successful path. -/
def Insert (t : BPlusTree) (key value : Int) : Option (Bool × BPlusTree) :=
  if IsEmpty t then
    let pid := t.next_page
    let L := BPlusTreeLeafPage.Init t.leaf_max_size
    let L := L.SetNextPageId INVALID_PAGE_ID
    let L := (L.SetKeyAt key value).2
    let pages' := Function.update t.pages pid (Page.leaf L)
    some (true, { t with header_page_id := pid, next_page := t.next_page + 1, pages := pages' })
  else
    match GetLeaf t key with
    | none => none
    | some pid =>
      match t.pages pid with
      | Page.leaf L =>
        let r := L.SetKeyAt key value
        if ¬ r.1 then some (false, t)
        else
          let t' := { t with pages := Function.update t.pages pid (Page.leaf r.2) }
          if r.2.IsOverflow then (split t' pid).map (fun t'' => (false, t''))
          else some (false, t')
      | _ => none

/-- `Remove(key)`: the body only declares an unused traversal context and
returns — a no-op. -/
def Remove (t : BPlusTree) (_key : Int) : BPlusTree := t

end BPlusTree

/-!
Concrete instances used by the claim theorems and witnesses.
-/

/-- Extracts the post-state of an `Insert`, with a default for the undefined
case. -/
def bptStateOf (o : Option (Bool × BPlusTree)) (d : BPlusTree) : BPlusTree :=
  match o with
  | some p => p.2
  | none => d

/-- Extracts the post-state of an `Evict`, with a default for the undefined
case. -/
def lruStateOf (o : Option (Option Int × LRUKReplacer)) (d : LRUKReplacer) : LRUKReplacer :=
  match o with
  | some p => p.2
  | none => d

/-- Extracts the final state of a defined operation run. -/
def lruRunOf (o : Option LRUKReplacer) (d : LRUKReplacer) : LRUKReplacer :=
  match o with
  | some r => r
  | none => d

/-- Number of evictable entries in a node store. -/
def evictCount (s : List (Int × LRUKNode)) : Nat :=
  (s.filter (fun p => p.2.is_evictable)).length

/-- The spec's k = 2 example, frames A = 0 and B = 1 on a two-frame pool. -/
def exR0 : LRUKReplacer := LRUKReplacer.new 2 2

/-- Example after `RecordAccess(A)` at t = 1. -/
def exR1 : LRUKReplacer := (exR0.RecordAccess 0).2

/-- Example after `RecordAccess(B)` at t = 2. -/
def exR2 : LRUKReplacer := (exR1.RecordAccess 1).2

/-- Example after `RecordAccess(A)` at t = 3. -/
def exR3 : LRUKReplacer := (exR2.RecordAccess 0).2

/-- Example after marking A evictable. -/
def exR4 : LRUKReplacer := (exR3.SetEvictable 0 true).2

/-- Example after marking B evictable. -/
def exR5 : LRUKReplacer := (exR4.SetEvictable 1 true).2

/-- Example state after the first `Evict()`. -/
def exR6 : LRUKReplacer := lruStateOf exR5.Evict exR0

/-- Pool-size-1 replacer for the `RecordAccess` boundary counterexample. -/
def c7r : LRUKReplacer := LRUKReplacer.new 1 2

/-- The history stored for a frame (empty when the frame is unknown). -/
def historyOf (r : LRUKReplacer) (fid : Int) : List Nat :=
  match LRUKReplacer.storeFind r.node_store fid with
  | some n => n.history
  | none => []

/-- Operation sequence for the evictable-count witness: two frames accessed
and marked evictable, one eviction, one removal, one flag clear. -/
def c8ops : List LRUKReplacer.Op :=
  [.record 0, .setEvictable 0 true, .record 1, .setEvictable 1 true,
   .evict, .remove 1, .setEvictable 0 false]

/-- Final state of the evictable-count witness run. -/
def c8final : LRUKReplacer :=
  lruRunOf (LRUKReplacer.runOps (LRUKReplacer.new 3 2) c8ops) (LRUKReplacer.new 3 2)

/-- A sorted two-entry leaf (keys 1 and 3) used by the leaf-insert witnesses. -/
def wL : BPlusTreeLeafPage :=
  { size := 2, max_size := 4, next_page_id := -1,
    key_array := fun i => if i = 0 then 1 else if i = 1 then 3 else 0,
    rid_array := fun i => if i = 0 then 11 else if i = 1 then 33 else 0 }

/-- One-entry leaf (key 5 in every raw slot) for the accessor counterexample. -/
def c9L : BPlusTreeLeafPage :=
  { size := 1, max_size := 4, next_page_id := -1,
    key_array := fun _ => 5, rid_array := fun _ => 7 }

/-- Round-trip run: a tree constructed empty (`header_page_id` passed as the
sentinel) with `leaf_max_size = 2`. -/
def bptT0 : BPlusTree := BPlusTree.construct (-1) 2 (fun _ => Page.free) 0

/-- Result of `Insert(1, 10)` on the empty tree. -/
def bptS1 : Option (Bool × BPlusTree) := bptT0.Insert 1 10

/-- State after `Insert(1, 10)`. -/
def bptT1 : BPlusTree := bptStateOf bptS1 bptT0

/-- Result of `Insert(2, 20)`. -/
def bptS2 : Option (Bool × BPlusTree) := bptT1.Insert 2 20

/-- State after `Insert(2, 20)`. -/
def bptT2 : BPlusTree := bptStateOf bptS2 bptT0

/-- Result of `Insert(3, 30)` — this one overflows the leaf and splits. -/
def bptS3 : Option (Bool × BPlusTree) := bptT2.Insert 3 30

/-- State after `Insert(3, 30)`. -/
def bptT3 : BPlusTree := bptStateOf bptS3 bptT0

/-- Insert-contract run: the same empty-constructed tree with
`leaf_max_size = 4` (no split happens). -/
def c5T0 : BPlusTree := BPlusTree.construct (-1) 4 (fun _ => Page.free) 0

/-- Result of `Insert(10, 100)` on the empty tree. -/
def c5S1 : Option (Bool × BPlusTree) := c5T0.Insert 10 100

/-- State after `Insert(10, 100)`. -/
def c5T1 : BPlusTree := bptStateOf c5S1 c5T0

/-- Result of `Insert(20, 200)` — a fresh key into a non-empty tree. -/
def c5S2 : Option (Bool × BPlusTree) := c5T1.Insert 20 200

/-- State after `Insert(20, 200)`. -/
def c5T2 : BPlusTree := bptStateOf c5S2 c5T0

/-- Single-leaf single-key tree for the empty-tree removal scenario. -/
def c6T1 : BPlusTree := bptStateOf (c5T0.Insert 1 10) c5T0

/-- State after `Remove(1)` on the single-key tree. -/
def c6T2 : BPlusTree := c6T1.Remove 1

/-!
Helper lemmas about the association-list store.
-/

/-- Finding after an in-place modification at the same key sees the modified
node. -/
theorem storeFind_storeModify_self (s : List (Int × LRUKNode)) (fid : Int)
    (g : LRUKNode → LRUKNode) :
    LRUKReplacer.storeFind (LRUKReplacer.storeModify s fid g) fid =
      (LRUKReplacer.storeFind s fid).map g := by
  induction s with
  | nil => rfl
  | cons p t ih =>
    by_cases h : p.1 = fid <;>
      simp [LRUKReplacer.storeModify, LRUKReplacer.storeFind, h, ih]

/-- Finding in an appended store first consults the left part. -/
theorem storeFind_append_of_none (s₁ s₂ : List (Int × LRUKNode)) (fid : Int)
    (h : LRUKReplacer.storeFind s₁ fid = none) :
    LRUKReplacer.storeFind (s₁ ++ s₂) fid = LRUKReplacer.storeFind s₂ fid := by
  induction s₁ with
  | nil => rfl
  | cons p t ih =>
    by_cases hp : p.1 = fid
    · simp [LRUKReplacer.storeFind, hp] at h
    · simp only [LRUKReplacer.storeFind, if_neg hp] at h
      simp only [List.cons_append, LRUKReplacer.storeFind, if_neg hp]
      exact ih h

/-!
Claim theorems.
-/

/-- C10: the `BPlusTree` constructor unconditionally overwrites the header
page's stored root page identifier with the empty-tree sentinel
`INVALID_PAGE_ID`, whatever the page store previously held there — so a
newly constructed tree starts from the empty-tree root slot and never
attaches to a pre-existing tree persisted through that header page. -/
theorem construct_resets_header_root (pages0 : Int → Page) (hpid : Int)
    (lms : Nat) (next0 : Int) :
    (BPlusTree.construct hpid lms pages0 next0).pages hpid =
      Page.header INVALID_PAGE_ID := by
  simp [BPlusTree.construct]

/-- C1 (failing run): starting from an empty-constructed tree with
`leaf_max_size = 2`, the three inserts `(1,10)`, `(2,20)`, `(3,30)` all
complete (the third overflows the leaf and splits), the pair `(3, 30)` is
physically present in the new sibling leaf (page 1) — yet `GetValue 3` (and
likewise `GetValue 1`) does not succeed: the tree's descent starts at
`header_page_id_`, which still names the old leaf page, now clobbered by the
split's persisted-root-pointer write.  The round-trip property fails. -/
theorem getvalue_loses_inserted_key_after_split :
    Option.map Prod.fst bptS1 = some true ∧
    Option.map Prod.fst bptS2 = some false ∧
    Option.map Prod.fst bptS3 = some false ∧
    (match bptT3.pages 1 with
     | Page.leaf L => L.LookUp 3
     | _ => none) = some 30 ∧
    bptT3.GetValue 3 = none ∧
    bptT3.GetValue 1 = none := by
  refine ⟨rfl, rfl, rfl, rfl, rfl, rfl⟩

/-- C5 (failing run): `Insert(10,100)` into the empty tree returns `true`,
and `Insert(20,200)` — a fresh, non-duplicate key — actually inserts the
entry (`GetValue 20` finds it afterwards) yet returns `false`, because the
successful non-empty-tree path of `Insert` ends in `return 0;`.  This
contradicts the function's own documented contract. -/
theorem insert_returns_false_on_successful_insert :
    Option.map Prod.fst c5S1 = some true ∧
    Option.map Prod.fst c5S2 = some false ∧
    c5T2.GetValue 20 = some (some 200) := by
  refine ⟨rfl, rfl, rfl⟩

/-- C6 (failing run): on a tree whose root is a single leaf holding exactly
one key, `Remove` of that key is a no-op (the body only declares an unused
context), so `IsEmpty()` stays `false`, `GetRootPageId()` returns the
constant `0` rather than the empty-tree sentinel, and the key is still
found. -/
theorem remove_only_key_leaves_tree_nonempty :
    (match c6T1.pages c6T1.header_page_id with
     | Page.leaf L => some L.size
     | _ => none) = some 1 ∧
    c6T2 = c6T1 ∧
    c6T2.IsEmpty = false ∧
    c6T2.GetRootPageId = 0 ∧
    c6T2.GetRootPageId ≠ INVALID_PAGE_ID ∧
    c6T2.GetValue 1 = some (some 10) := by
  refine ⟨rfl, rfl, rfl, rfl, by decide, rfl⟩

/-- C7 (counterexample): on a pool of one frame, the only valid frame id in
`[0, num_frames)` is `0`, yet `RecordAccess(1)` raises nothing — the code
checks `static_cast<size_t>(frame_id) > replacer_size_` with a strict
inequality, so the out-of-range identifier `1` is accepted (and recorded). -/
theorem recordaccess_accepts_id_equal_to_pool_size :
    ¬ ((0 : Int) ≤ 1 ∧ (1 : Int) < (c7r.replacer_size : Int)) ∧
    (c7r.RecordAccess 1).1 = false ∧
    historyOf (c7r.RecordAccess 1).2 1 = [1] := by
  refine ⟨by decide, rfl, rfl⟩

/-- C7 (amended): `RecordAccess(frame_id)` raises the invalid-frame error iff
the identifier is negative or strictly greater than the configured pool size
(so `frame_id = num_frames` is accepted); on every accepted identifier it
appends the freshly incremented logical timestamp to that frame's history
(creating the frame record when absent) and raises nothing. -/
theorem recordaccess_error_contract (r : LRUKReplacer) (fid : Int) :
    ((r.RecordAccess fid).1 = true ↔ (fid < 0 ∨ (r.replacer_size : Int) < fid)) ∧
    ((r.RecordAccess fid).1 = false →
      historyOf (r.RecordAccess fid).2 fid =
        historyOf r fid ++ [r.current_timestamp + 1]) := by
  constructor
  · unfold LRUKReplacer.RecordAccess
    by_cases h : fid < 0 ∨ (r.replacer_size : Int) < fid
    · simp [h]
    · simp [h]
  · intro hok
    by_cases h : fid < 0 ∨ (r.replacer_size : Int) < fid
    · unfold LRUKReplacer.RecordAccess at hok
      simp [h] at hok
    · have hns : (r.RecordAccess fid).2.node_store =
          LRUKReplacer.storeModify
            (if (LRUKReplacer.storeFind r.node_store fid).isNone then
              r.node_store ++ [(fid, { fid := fid, history := [], is_evictable := false })]
            else r.node_store) fid
            (fun n => { n with history := n.history ++ [r.current_timestamp + 1] }) := by
        unfold LRUKReplacer.RecordAccess
        by_cases hf : (LRUKReplacer.storeFind r.node_store fid).isNone <;> simp [h, hf]
      rcases ho : LRUKReplacer.storeFind r.node_store fid with _ | n
      · have h1 : LRUKReplacer.storeFind (r.RecordAccess fid).2.node_store fid =
            some { fid := fid, history := [r.current_timestamp + 1], is_evictable := false } := by
          rw [hns, ho]
          simp [storeFind_storeModify_self, storeFind_append_of_none _ _ _ ho,
            LRUKReplacer.storeFind]
        simp [historyOf, h1, ho]
      · have h1 : LRUKReplacer.storeFind (r.RecordAccess fid).2.node_store fid =
            some { n with history := n.history ++ [r.current_timestamp + 1] } := by
          rw [hns, ho]
          simp [storeFind_storeModify_self, ho]
        simp [historyOf, h1, ho]

/-- C7 (witness): the amended contract evaluated at a concrete accepted
identifier. -/
theorem recordaccess_error_contract_witness :
    ((c7r.RecordAccess 0).1 = false) ∧
    historyOf (c7r.RecordAccess 0).2 0 = historyOf c7r 0 ++ [1] := by
  refine ⟨by decide, (recordaccess_error_contract c7r 0).2 (by decide)⟩

/-- C9 (counterexample): `KeyAt` performs no bounds check: on a leaf of size
1 the index 1 lies outside `[0, size)` yet `KeyAt 1` happily returns the raw
slot contents instead of rejecting the access. -/
theorem keyat_reads_past_live_entries :
    ¬ ((0 : Int) ≤ 1 ∧ (1 : Int) < (c9L.size : Int)) ∧
    c9L.KeyAt 1 = some 5 := by
  refine ⟨by decide, rfl⟩

/-- C9 (amended): `ValueAt(i)` raises the out-of-range error exactly when `i`
is not in `[0, size)`; `KeyAt(i)`, by contrast, performs no bounds check at
all — for every non-negative index, live or not, it returns the raw array
slot. -/
theorem leaf_accessor_bounds (L : BPlusTreeLeafPage) (i : Int) :
    (L.ValueAt i = none ↔ ¬ (0 ≤ i ∧ i < (L.size : Int))) ∧
    (0 ≤ i → L.KeyAt i = some (L.key_array i.toNat)) := by
  constructor
  · unfold BPlusTreeLeafPage.ValueAt
    by_cases h : 0 ≤ i ∧ i < (L.size : Int) <;> simp [h]
  · intro h
    unfold BPlusTreeLeafPage.KeyAt
    simp [h]

/-- C9 (witness): the amended accessor contract evaluated on the concrete
leaf, at a live index and at an out-of-range one. -/
theorem leaf_accessor_bounds_witness :
    (c9L.ValueAt 0 = none ↔ ¬ ((0 : Int) ≤ 0 ∧ (0 : Int) < (c9L.size : Int))) ∧
    c9L.KeyAt 0 = some (c9L.key_array (0 : Int).toNat) := by
  exact ⟨(leaf_accessor_bounds c9L 0).1, (leaf_accessor_bounds c9L 0).2 (by decide)⟩

/-- The binary-search loop finds every key present in its bracket: on a
sorted key array with a witness index inside `[low, high]`, the loop returns
`none` (duplicate found). -/
theorem bsearchAux_found
    (keys : Nat → Int) (key : Int) (size : Nat)
    (sorted : ∀ j, j < size → ∀ i, i < j → keys i < keys j) :
    ∀ (fuel : Nat) (low high : Int), 0 ≤ low → high < (size : Int) →
      (high + 1 - low).toNat < fuel →
      (∃ i : Nat, i < size ∧ low ≤ (i : Int) ∧ (i : Int) ≤ high ∧ keys i = key) →
      BPlusTreeLeafPage.bsearchAux keys key fuel low high = none := by
  intro fuel
  induction fuel with
  | zero =>
    intro low high _ _ hf _
    omega
  | succ fuel ih =>
    intro low high hlow hhigh hf hw
    obtain ⟨i, hisz, hil, hih, hik⟩ := hw
    have hlh : low ≤ high := le_trans hil hih
    unfold BPlusTreeLeafPage.bsearchAux
    rw [if_pos hlh]
    have hc0 : (0 : Int) ≤ (((high - low).toNat / 2 : Nat) : Int) := by positivity
    have hcd : (((high - low).toNat / 2 : Nat) : Int) ≤ high - low := by
      have h1 : ((high - low).toNat / 2) ≤ (high - low).toNat := Nat.div_le_self _ _
      omega
    set c : Int := (((high - low).toNat / 2 : Nat) : Int) with hc
    have hmt : ((low + c).toNat : Int) = low + c := Int.toNat_of_nonneg (by omega)
    by_cases hA : keys (low + c).toNat = key
    · rw [if_pos hA]
    · rw [if_neg hA]
      by_cases hB : key < keys (low + c).toNat
      · rw [if_pos hB]
        apply ih low (low + c - 1) hlow (by omega) (by omega)
        refine ⟨i, hisz, hil, ?_, hik⟩
        have hne : i ≠ (low + c).toNat := by
          intro he
          exact hA (he ▸ hik)
        have hgt : ¬ (low + c).toNat < i := by
          intro hlt
          have := sorted i hisz (low + c).toNat hlt
          omega
        omega
      · rw [if_neg hB]
        have hC : keys (low + c).toNat < key := by omega
        apply ih (low + c + 1) high (by omega) hhigh (by omega)
        refine ⟨i, hisz, ?_, hih, hik⟩
        have hne : i ≠ (low + c).toNat := by
          intro he
          exact hA (he ▸ hik)
        have hgt : ¬ i < (low + c).toNat := by
          intro hlt
          have hm : (low + c).toNat < size := by omega
          have := sorted (low + c).toNat hm i hlt
          omega
        omega

/-- The binary-search loop on a sorted key array that does not contain the
key returns the insertion point: the unique boundary `L` with all keys below
`L` smaller and all keys from `L` on larger. -/
theorem bsearchAux_absent
    (keys : Nat → Int) (key : Int) (size : Nat)
    (sorted : ∀ j, j < size → ∀ i, i < j → keys i < keys j)
    (absent : ∀ i, i < size → keys i ≠ key) :
    ∀ (fuel : Nat) (low high : Int), 0 ≤ low → low ≤ high + 1 → high < (size : Int) →
      (high + 1 - low).toNat < fuel →
      (∀ i : Nat, i < size → (i : Int) < low → keys i < key) →
      (∀ i : Nat, i < size → high < (i : Int) → key < keys i) →
      ∃ L : Int, BPlusTreeLeafPage.bsearchAux keys key fuel low high = some L ∧
        low ≤ L ∧ L ≤ high + 1 ∧
        (∀ i : Nat, i < size → (i : Int) < L → keys i < key) ∧
        (∀ i : Nat, i < size → L ≤ (i : Int) → key < keys i) := by
  intro fuel
  induction fuel with
  | zero =>
    intro low high _ _ _ hf _ _
    omega
  | succ fuel ih =>
    intro low high hlow hlh1 hhigh hf hlo hhi
    by_cases hlh : low ≤ high
    · unfold BPlusTreeLeafPage.bsearchAux
      rw [if_pos hlh]
      have hc0 : (0 : Int) ≤ (((high - low).toNat / 2 : Nat) : Int) := by positivity
      have hcd : (((high - low).toNat / 2 : Nat) : Int) ≤ high - low := by
        have h1 : ((high - low).toNat / 2) ≤ (high - low).toNat := Nat.div_le_self _ _
        omega
      set c : Int := (((high - low).toNat / 2 : Nat) : Int) with hc
      have hmt : ((low + c).toNat : Int) = low + c := Int.toNat_of_nonneg (by omega)
      have hmsz : (low + c).toNat < size := by omega
      have hA : ¬ keys (low + c).toNat = key := absent _ hmsz
      rw [if_neg hA]
      by_cases hB : key < keys (low + c).toNat
      · rw [if_pos hB]
        have hhi' : ∀ i : Nat, i < size → low + c - 1 < (i : Int) → key < keys i := by
          intro i hi hgt
          by_cases he : i = (low + c).toNat
          · exact he ▸ hB
          · have hlt : (low + c).toNat < i := by omega
            have := sorted i hi (low + c).toNat hlt
            omega
        obtain ⟨L, hres, hLl, hLh, hP1, hP2⟩ :=
          ih low (low + c - 1) hlow (by omega) (by omega) (by omega) hlo hhi'
        exact ⟨L, hres, hLl, by omega, hP1, hP2⟩
      · rw [if_neg hB]
        have hC : keys (low + c).toNat < key := by omega
        have hlo' : ∀ i : Nat, i < size → (i : Int) < low + c + 1 → keys i < key := by
          intro i hi hlt
          by_cases he : i = (low + c).toNat
          · exact he ▸ hC
          · have hlt' : i < (low + c).toNat := by omega
            have := sorted (low + c).toNat hmsz i hlt'
            omega
        obtain ⟨L, hres, hLl, hLh, hP1, hP2⟩ :=
          ih (low + c + 1) high (by omega) (by omega) hhigh (by omega) hlo' hhi
        exact ⟨L, hres, by omega, hLh, hP1, hP2⟩
    · refine ⟨low, ?_, le_refl low, by omega, hlo, ?_⟩
      · unfold BPlusTreeLeafPage.bsearchAux
        rw [if_neg hlh]
      · intro i hi hge
        exact hhi i hi (by omega)

/-- Net effect of the shift loop: slots strictly between `low` and `i`
(inclusive) receive their left neighbour's old value, all other slots are
untouched. -/
theorem shiftRight_eq (low : Nat) :
    ∀ (i : Nat) (a : Nat → Int) (j : Nat),
      BPlusTreeLeafPage.shiftRight a low i j =
        if low < j ∧ j ≤ i then a (j - 1) else a j := by
  intro i
  induction i with
  | zero =>
    intro a j
    unfold BPlusTreeLeafPage.shiftRight
    split_ifs with h
    · omega
    · rfl
  | succ i ih =>
    intro a j
    unfold BPlusTreeLeafPage.shiftRight
    by_cases hli : low < i + 1
    · rw [if_pos hli, ih]
      split_ifs <;> first | rfl | omega | (congr 1; omega)
    · rw [if_neg hli]
      split_ifs with h
      · omega
      · rfl

/-- C4: on a leaf whose live keys are strictly ascending and already contain
a key equal to `key`, the leaf-level insert (`SetKeyAt`) returns `false` and
leaves the leaf completely unchanged — same size, same key array, same value
array (the returned page is the input page itself). -/
theorem leaf_insert_rejects_duplicate (L : BPlusTreeLeafPage) (key value : Int)
    (sorted : ∀ j, j < L.size → ∀ i, i < j → L.key_array i < L.key_array j)
    (present : ∃ i, i < L.size ∧ L.key_array i = key) :
    L.SetKeyAt key value = (false, L) := by
  obtain ⟨i, hi, hk⟩ := present
  have h := bsearchAux_found L.key_array key L.size sorted (L.size + 1) 0
    ((L.size : Int) - 1) le_rfl (by omega) (by omega)
    ⟨i, hi, by omega, by omega, hk⟩
  unfold BPlusTreeLeafPage.SetKeyAt
  rw [h]

/-- C3: on a leaf whose live keys are strictly ascending and do not contain
`key`, the leaf-level insert (`SetKeyAt`) returns `true`, grows the size by
exactly one, keeps the live key array strictly ascending, and the live
entries afterwards are exactly the old entries plus `(key, value)`. -/
theorem leaf_insert_fresh_key (L : BPlusTreeLeafPage) (key value : Int)
    (sorted : ∀ j, j < L.size → ∀ i, i < j → L.key_array i < L.key_array j)
    (absent : ∀ i, i < L.size → L.key_array i ≠ key) :
    (L.SetKeyAt key value).1 = true ∧
    (L.SetKeyAt key value).2.size = L.size + 1 ∧
    (∀ j, j < (L.SetKeyAt key value).2.size → ∀ i, i < j →
      (L.SetKeyAt key value).2.key_array i < (L.SetKeyAt key value).2.key_array j) ∧
    ((L.SetKeyAt key value).2.liveEntries).Perm ((key, value) :: L.liveEntries) := by
  obtain ⟨P, hres, hP0, hPsz, hlt, hgt⟩ :=
    bsearchAux_absent L.key_array key L.size sorted absent (L.size + 1) 0
      ((L.size : Int) - 1) le_rfl (by omega) (by omega) (by omega)
      (fun i hi h => absurd h (by omega))
      (fun i hi h => absurd hi (by omega))
  have hpc : ((P.toNat : Nat) : Int) = P := Int.toNat_of_nonneg hP0
  set p : Nat := P.toNat with hp
  have hpsz : p ≤ L.size := by omega
  have hltN : ∀ i, i < L.size → i < p → L.key_array i < key := by
    intro i hi hip
    exact hlt i hi (by omega)
  have hgtN : ∀ i, i < L.size → p ≤ i → key < L.key_array i := by
    intro i hi hip
    exact hgt i hi (by omega)
  have hfst : (L.SetKeyAt key value).1 = true := by
    unfold BPlusTreeLeafPage.SetKeyAt
    rw [hres]
  have hka : ∀ m : Nat, (L.SetKeyAt key value).2.key_array m =
      if m = p then key
      else if p < m ∧ m ≤ L.size then L.key_array (m - 1) else L.key_array m := by
    intro m
    unfold BPlusTreeLeafPage.SetKeyAt
    rw [hres]
    show (if m = p then key else BPlusTreeLeafPage.shiftRight L.key_array p L.size m) = _
    rw [shiftRight_eq]
  have hra : ∀ m : Nat, (L.SetKeyAt key value).2.rid_array m =
      if m = p then value
      else if p < m ∧ m ≤ L.size then L.rid_array (m - 1) else L.rid_array m := by
    intro m
    unfold BPlusTreeLeafPage.SetKeyAt
    rw [hres]
    show (if m = p then value else BPlusTreeLeafPage.shiftRight L.rid_array p L.size m) = _
    rw [shiftRight_eq]
  have hsz : (L.SetKeyAt key value).2.size = L.size + 1 := by
    unfold BPlusTreeLeafPage.SetKeyAt
    rw [hres]
  refine ⟨hfst, hsz, ?_, ?_⟩
  · -- strict ascent of the new live key array
    intro j hj i hij
    rw [hsz] at hj
    rw [hka i, hka j]
    by_cases hip : i = p
    · subst hip
      have hjgt : p < j := hij
      rw [if_pos rfl, if_neg (show ¬ j = p by omega),
        if_pos (show p < j ∧ j ≤ L.size from ⟨hjgt, by omega⟩)]
      exact hgtN (j - 1) (by omega) (by omega)
    · rw [if_neg hip]
      by_cases hjp : j = p
      · subst hjp
        rw [if_pos rfl, if_neg (show ¬ (p < i ∧ i ≤ L.size) by omega)]
        exact hltN i (by omega) (by omega)
      · rw [if_neg hjp]
        by_cases higt : p < i
        · rw [if_pos (show p < i ∧ i ≤ L.size from ⟨higt, by omega⟩),
            if_pos (show p < j ∧ j ≤ L.size from ⟨by omega, by omega⟩)]
          exact sorted (j - 1) (by omega) (i - 1) (by omega)
        · rw [if_neg (show ¬ (p < i ∧ i ≤ L.size) by omega)]
          by_cases hjgt : p < j
          · rw [if_pos (show p < j ∧ j ≤ L.size from ⟨hjgt, by omega⟩)]
            exact sorted (j - 1) (by omega) i (by omega)
          · rw [if_neg (show ¬ (p < j ∧ j ≤ L.size) by omega)]
            exact sorted j (by omega) i hij
  · -- the live entries are the old ones with (key, value) inserted at p
    have hlive : (L.SetKeyAt key value).2.liveEntries =
        L.liveEntries.take p ++ (key, value) :: L.liveEntries.drop p := by
      have hlenL : (L.SetKeyAt key value).2.liveEntries.length = L.size + 1 := by
        simp [BPlusTreeLeafPage.liveEntries, hsz]
      have hlenOld : L.liveEntries.length = L.size := by
        simp [BPlusTreeLeafPage.liveEntries]
      apply List.ext_getElem
      · simp only [hlenL, List.length_append, List.length_take, List.length_cons,
          List.length_drop, hlenOld]
        omega
      · intro n h1 h2
        have hn : n < L.size + 1 := by omega
        have hLHS : (L.SetKeyAt key value).2.liveEntries[n] =
            ((L.SetKeyAt key value).2.key_array n, (L.SetKeyAt key value).2.rid_array n) := by
          simp [BPlusTreeLeafPage.liveEntries]
        have hOld : ∀ (m : Nat) (hm : m < L.liveEntries.length),
            L.liveEntries[m] = (L.key_array m, L.rid_array m) := by
          intro m hm
          simp [BPlusTreeLeafPage.liveEntries]
        rw [hLHS, hka n, hra n]
        by_cases hnp : n < p
        · rw [List.getElem_append_left (by rw [List.length_take, hlenOld]; omega)]
          rw [List.getElem_take, hOld n (by omega)]
          rw [if_neg (show ¬ n = p by omega), if_neg (show ¬ (p < n ∧ n ≤ L.size) by omega),
            if_neg (show ¬ n = p by omega), if_neg (show ¬ (p < n ∧ n ≤ L.size) by omega)]
        · rw [List.getElem_append_right (by rw [List.length_take, hlenOld]; omega)]
          by_cases hne : n = p
          · have h0 : n - (List.take p L.liveEntries).length = 0 := by
              rw [List.length_take, hlenOld]
              omega
            rw [if_pos hne, if_pos hne]
            simp only [h0, List.getElem_cons_zero]
          · have hgtp : p < n := by omega
            have hidx : n - (List.take p L.liveEntries).length = (n - p - 1) + 1 := by
              rw [List.length_take, hlenOld]
              omega
            simp only [hidx, List.getElem_cons_succ]
            rw [List.getElem_drop, hOld (p + (n - p - 1)) (by rw [hlenOld]; omega)]
            rw [if_neg hne, if_pos (show p < n ∧ n ≤ L.size from ⟨hgtp, by omega⟩),
              if_neg hne, if_pos (show p < n ∧ n ≤ L.size from ⟨hgtp, by omega⟩)]
            have heq : p + (n - p - 1) = n - 1 := by omega
            rw [heq]
    rw [hlive]
    refine List.Perm.trans List.perm_middle ?_
    rw [List.take_append_drop]

/-- C3 (witness): the fresh-key leaf insert applied to the concrete sorted
leaf `wL` (keys 1 and 3) with new key 2. -/
theorem leaf_insert_fresh_key_witness :
    (∀ j, j < wL.size → ∀ i, i < j → wL.key_array i < wL.key_array j) ∧
    (∀ i, i < wL.size → wL.key_array i ≠ 2) ∧
    (wL.SetKeyAt 2 9).1 = true ∧
    (wL.SetKeyAt 2 9).2.size = wL.size + 1 ∧
    (wL.SetKeyAt 2 9).2.liveEntries.Perm ((2, 9) :: wL.liveEntries) := by
  have h := leaf_insert_fresh_key wL 2 9 (by decide) (by decide)
  exact ⟨by decide, by decide, h.1, h.2.1, h.2.2.2⟩

/-- C4 (witness): the duplicate-rejecting leaf insert applied to the concrete
sorted leaf `wL`, re-inserting its key 3. -/
theorem leaf_insert_rejects_duplicate_witness :
    (∀ j, j < wL.size → ∀ i, i < j → wL.key_array i < wL.key_array j) ∧
    wL.SetKeyAt 3 7 = (false, wL) :=
  ⟨by decide, leaf_insert_rejects_duplicate wL 3 7 (by decide) ⟨1, by decide⟩⟩

/-- Membership with unique keys determines `storeFind`. -/
theorem storeFind_of_mem_nodup (s : List (Int × LRUKNode)) (f : Int) (n : LRUKNode)
    (hmem : (f, n) ∈ s) (hnd : (s.map Prod.fst).Nodup) :
    LRUKReplacer.storeFind s f = some n := by
  induction s with
  | nil => cases hmem
  | cons p t ih =>
    rcases List.mem_cons.mp hmem with he | ht
    · subst he
      simp [LRUKReplacer.storeFind]
    · have hnd' := (List.nodup_cons.mp hnd)
      have hp : ¬ p.1 = f := by
        intro he
        exact hnd'.1 (he ▸ List.mem_map_of_mem Prod.fst ht)
      simp only [LRUKReplacer.storeFind, if_neg hp]
      exact ih ht hnd'.2

/-- The `infinitely_distanced_frames` selection loop returns an element of
the candidate pool whose most recent access is oldest. -/
theorem minByBackAux_spec :
    ∀ (l : List (Int × LRUKNode)) (best : Int × LRUKNode) (bb : Nat),
      best.2.history.getLast? = some bb →
      (∀ p ∈ l, p.2.history ≠ []) →
      ∃ m mb, LRUKReplacer.minByBackAux best bb l = some m ∧
        (m = best ∨ m ∈ l) ∧ m.2.history.getLast? = some mb ∧ mb ≤ bb ∧
        (∀ p ∈ l, ∀ s, p.2.history.getLast? = some s → mb ≤ s) := by
  intro l
  induction l with
  | nil =>
    intro best bb hb _
    exact ⟨best, bb, rfl, Or.inl rfl, hb, le_rfl, by intro p hp; cases hp⟩
  | cons p t ih =>
    intro best bb hb hne
    have hpne : p.2.history ≠ [] := hne p (List.mem_cons_self p t)
    obtain ⟨s, hs⟩ := Option.isSome_iff_exists.mp (List.getLast?_isSome.mpr hpne)
    have hne' : ∀ q ∈ t, q.2.history ≠ [] := fun q hq => hne q (List.mem_cons_of_mem p hq)
    unfold LRUKReplacer.minByBackAux
    simp only [hs]
    by_cases hlt : s < bb
    · rw [if_pos hlt]
      obtain ⟨m, mb, hres, hmem, hmb, hle, hall⟩ := ih p s hs hne'
      refine ⟨m, mb, hres, ?_, hmb, by omega, ?_⟩
      · rcases hmem with he | ht
        · exact Or.inr (he ▸ List.mem_cons_self p t)
        · exact Or.inr (List.mem_cons_of_mem p ht)
      · intro q hq sq hsq
        rcases List.mem_cons.mp hq with he | ht
        · rw [he] at hsq
          rw [hsq] at hs
          have hss := Option.some.inj hs
          omega
        · exact hall q ht sq hsq
    · rw [if_neg hlt]
      obtain ⟨m, mb, hres, hmem, hmb, hle, hall⟩ := ih best bb hb hne'
      refine ⟨m, mb, hres, ?_, hmb, hle, ?_⟩
      · rcases hmem with he | ht
        · exact Or.inl he
        · exact Or.inr (List.mem_cons_of_mem p ht)
      · intro q hq sq hsq
        rcases List.mem_cons.mp hq with he | ht
        · rw [he] at hsq
          rw [hsq] at hs
          have hss := Option.some.inj hs
          omega
        · exact hall q ht sq hsq

/-- The `evictable_frames` selection loop returns an element of the pool
whose backward k-distance is largest. -/
theorem maxByKthAux_spec :
    ∀ (l : List (Int × LRUKNode)) (ts k : Nat) (best : Int × LRUKNode) (bs : Nat),
      LRUKReplacer.kthStamp k best.2 = some bs →
      (∀ p ∈ l, (LRUKReplacer.kthStamp k p.2).isSome) →
      ∃ m ms, LRUKReplacer.maxByKthAux ts k best (ts - bs) l = some m ∧
        (m = best ∨ m ∈ l) ∧ LRUKReplacer.kthStamp k m.2 = some ms ∧
        ts - bs ≤ ts - ms ∧
        (∀ p ∈ l, ∀ s, LRUKReplacer.kthStamp k p.2 = some s → ts - s ≤ ts - ms) := by
  intro l
  induction l with
  | nil =>
    intro ts k best bs hb _
    exact ⟨best, bs, rfl, Or.inl rfl, hb, le_rfl, by intro p hp; cases hp⟩
  | cons p t ih =>
    intro ts k best bs hb hsome
    have hps := hsome p (List.mem_cons_self p t)
    obtain ⟨s, hs⟩ := Option.isSome_iff_exists.mp hps
    have hsome' : ∀ q ∈ t, (LRUKReplacer.kthStamp k q.2).isSome :=
      fun q hq => hsome q (List.mem_cons_of_mem p hq)
    unfold LRUKReplacer.maxByKthAux
    simp only [hs]
    by_cases hgt : ts - s > ts - bs
    · rw [if_pos hgt]
      obtain ⟨m, ms, hres, hmem, hms, hle, hall⟩ := ih ts k p s hs hsome'
      refine ⟨m, ms, hres, ?_, hms, by omega, ?_⟩
      · rcases hmem with he | ht
        · exact Or.inr (he ▸ List.mem_cons_self p t)
        · exact Or.inr (List.mem_cons_of_mem p ht)
      · intro q hq sq hsq
        rcases List.mem_cons.mp hq with he | ht
        · rw [he] at hsq
          rw [hsq] at hs
          have hss := Option.some.inj hs
          omega
        · exact hall q ht sq hsq
    · rw [if_neg hgt]
      obtain ⟨m, ms, hres, hmem, hms, hle, hall⟩ := ih ts k best bs hb hsome'
      refine ⟨m, ms, hres, ?_, hms, hle, ?_⟩
      · rcases hmem with he | ht
        · exact Or.inl he
        · exact Or.inr (List.mem_cons_of_mem p ht)
      · intro q hq sq hsq
        rcases List.mem_cons.mp hq with he | ht
        · rw [he] at hsq
          rw [hsq] at hs
          have hss := Option.some.inj hs
          omega
        · exact hall q ht sq hsq

/-- Membership characterisation of the `+∞` group. -/
theorem mem_infGroup {r : LRUKReplacer} {p : Int × LRUKNode} :
    p ∈ LRUKReplacer.infGroup r ↔
      p ∈ r.node_store ∧ p.2.is_evictable = true ∧ p.2.history.length < r.k := by
  simp [LRUKReplacer.infGroup, List.mem_filter, and_assoc]

/-- Membership characterisation of the finite-distance group. -/
theorem mem_finGroup {r : LRUKReplacer} {p : Int × LRUKNode} :
    p ∈ LRUKReplacer.finGroup r ↔
      p ∈ r.node_store ∧ p.2.is_evictable = true ∧ r.k ≤ p.2.history.length := by
  simp [LRUKReplacer.finGroup, List.mem_filter, and_assoc, Nat.not_lt]

/-- Membership characterisation of the evictable entries. -/
theorem mem_evictableNodes {r : LRUKReplacer} {p : Int × LRUKNode} :
    p ∈ LRUKReplacer.evictableNodes r ↔ p ∈ r.node_store ∧ p.2.is_evictable = true := by
  simp [LRUKReplacer.evictableNodes, List.mem_filter]

/-- If both selection groups are empty, no frame is evictable. -/
theorem evictable_nil_of_groups (r : LRUKReplacer)
    (h1 : LRUKReplacer.infGroup r = []) (h2 : LRUKReplacer.finGroup r = []) :
    LRUKReplacer.evictableNodes r = [] := by
  rw [LRUKReplacer.evictableNodes, List.filter_eq_nil_iff]
  intro a ha hev
  rw [LRUKReplacer.infGroup, List.filter_eq_nil_iff] at h1
  rw [LRUKReplacer.finGroup, List.filter_eq_nil_iff] at h2
  by_cases hlen : a.2.history.length < r.k
  · exact h1 a ha (by simp [hev, hlen])
  · exact h2 a ha (by simp [hev, hlen])

/-- The k-th-most-recent stamp exists whenever `1 ≤ k ≤` the history length. -/
theorem kthStamp_isSome {k : Nat} {n : LRUKNode} (hk : 1 ≤ k)
    (hlen : k ≤ n.history.length) : (LRUKReplacer.kthStamp k n).isSome = true := by
  unfold LRUKReplacer.kthStamp
  rw [List.get?_eq_get (by omega)]
  rfl

/-- Reduction of `Evict` when the `+∞` group is non-empty. -/
theorem evict_eq_of_infGroup_cons (r : LRUKReplacer) (p : Int × LRUKNode)
    (t : List (Int × LRUKNode)) (hs : r.node_store ≠ [])
    (hinf : LRUKReplacer.infGroup r = p :: t)
    (s : Nat) (hgl : p.2.history.getLast? = some s)
    (m : Int × LRUKNode) (haux : LRUKReplacer.minByBackAux p s t = some m) :
    r.Evict = some (some m.1,
      LRUKReplacer.clearVictim
        { r with current_timestamp := r.current_timestamp + 1 } m.1) := by
  have hcond : ¬ (({ r with current_timestamp := r.current_timestamp + 1 }
      : LRUKReplacer).node_store.isEmpty = true) := by
    simp only [List.isEmpty_iff]
    exact hs
  have hinf1 : LRUKReplacer.infGroup
      { r with current_timestamp := r.current_timestamp + 1 } = p :: t := hinf
  simp only [LRUKReplacer.Evict]
  rw [if_neg hcond]
  simp only [hinf1, hgl, haux]

/-- Reduction of `Evict` when the `+∞` group is empty and the finite group
is non-empty. -/
theorem evict_eq_of_finGroup_cons (r : LRUKReplacer) (q : Int × LRUKNode)
    (t : List (Int × LRUKNode)) (hs : r.node_store ≠ [])
    (hinf : LRUKReplacer.infGroup r = [])
    (hfin : LRUKReplacer.finGroup r = q :: t)
    (s : Nat) (hks : LRUKReplacer.kthStamp r.k q.2 = some s)
    (m : Int × LRUKNode)
    (haux : LRUKReplacer.maxByKthAux (r.current_timestamp + 1) r.k q
      ((r.current_timestamp + 1) - s) t = some m) :
    r.Evict = some (some m.1,
      LRUKReplacer.clearVictim
        { r with current_timestamp := r.current_timestamp + 1 } m.1) := by
  have hcond : ¬ (({ r with current_timestamp := r.current_timestamp + 1 }
      : LRUKReplacer).node_store.isEmpty = true) := by
    simp only [List.isEmpty_iff]
    exact hs
  have hinf1 : LRUKReplacer.infGroup
      { r with current_timestamp := r.current_timestamp + 1 } = [] := hinf
  have hfin1 : LRUKReplacer.finGroup
      { r with current_timestamp := r.current_timestamp + 1 } = q :: t := hfin
  simp only [LRUKReplacer.Evict]
  rw [if_neg hcond]
  simp only [hinf1, hfin1, hks, haux]

/-- Reduction of `Evict` when no frame is evictable (both groups empty). -/
theorem evict_eq_of_no_evictable (r : LRUKReplacer) (hs : r.node_store ≠ [])
    (hinf : LRUKReplacer.infGroup r = [])
    (hfin : LRUKReplacer.finGroup r = []) :
    r.Evict = some (none, { r with current_timestamp := r.current_timestamp + 1 }) := by
  have hcond : ¬ (({ r with current_timestamp := r.current_timestamp + 1 }
      : LRUKReplacer).node_store.isEmpty = true) := by
    simp only [List.isEmpty_iff]
    exact hs
  have hinf1 : LRUKReplacer.infGroup
      { r with current_timestamp := r.current_timestamp + 1 } = [] := hinf
  have hfin1 : LRUKReplacer.finGroup
      { r with current_timestamp := r.current_timestamp + 1 } = [] := hfin
  simp only [LRUKReplacer.Evict]
  rw [if_neg hcond]
  simp only [hinf1, hfin1]

/-- C2: the `Evict` contract.  First conjunct: the spec's k = 2 example run
(access A at t=1, B at t=2, A at t=3, both evictable) has the first `Evict`
return B (frame 1) and the second return A (frame 0).  Second conjunct, for
any replacer state with `k ≥ 1`, unique store keys and every evictable frame
carrying at least one recorded access (all invariants of reachable states;
an evictable frame with an empty history would make the C++ loop read
`back()` of an empty list): `Evict` is defined and returns no victim exactly
when no frame is evictable; otherwise the victim is an evictable stored
frame, drawn from the `+∞` group (fewer than k accesses) with the oldest
most-recent access whenever that group is non-empty, and otherwise from the
finite group with the largest backward k-distance; the victim's history is
cleared, its evictable flag dropped, and the evictable count decremented. -/
theorem evict_contract :
    ((exR5.Evict).map Prod.fst = some (some 1) ∧
      (exR6.Evict).map Prod.fst = some (some 0)) ∧
    (∀ r : LRUKReplacer, 1 ≤ r.k →
      (∀ p ∈ r.node_store, p.2.is_evictable = true → p.2.history ≠ []) →
      (r.node_store.map Prod.fst).Nodup →
      ∃ res r', r.Evict = some (res, r') ∧
        (res = none ↔ LRUKReplacer.evictableNodes r = []) ∧
        (∀ f, res = some f → ∃ n mb, (f, n) ∈ r.node_store ∧ n.is_evictable = true ∧
          (LRUKReplacer.infGroup r ≠ [] →
            (f, n) ∈ LRUKReplacer.infGroup r ∧ n.history.getLast? = some mb ∧
            (∀ q ∈ LRUKReplacer.infGroup r, ∀ sq, q.2.history.getLast? = some sq →
              mb ≤ sq)) ∧
          (LRUKReplacer.infGroup r = [] →
            (f, n) ∈ LRUKReplacer.finGroup r ∧ LRUKReplacer.kthStamp r.k n = some mb ∧
            (∀ q ∈ LRUKReplacer.finGroup r, ∀ sq, LRUKReplacer.kthStamp r.k q.2 = some sq →
              (r.current_timestamp + 1) - sq ≤ (r.current_timestamp + 1) - mb)) ∧
          LRUKReplacer.storeFind r'.node_store f =
            some { n with history := [], is_evictable := false } ∧
          r'.Size = r.Size - 1)) := by
  refine ⟨⟨by decide, by decide⟩, ?_⟩
  intro r hk hne hnd
  by_cases hs : r.node_store = []
  · refine ⟨none, { r with current_timestamp := r.current_timestamp + 1 }, ?_, ?_, ?_⟩
    · simp only [LRUKReplacer.Evict]
      rw [if_pos (by simp only [List.isEmpty_iff]; exact hs)]
    · constructor
      · intro _
        simp [LRUKReplacer.evictableNodes, hs]
      · intro _
        rfl
    · intro f hf
      cases hf
  · rcases hinf : LRUKReplacer.infGroup r with _ | ⟨p, t⟩
    · rcases hfin : LRUKReplacer.finGroup r with _ | ⟨q, t⟩
      · -- nothing evictable
        refine ⟨none, _, evict_eq_of_no_evictable r hs hinf hfin, ?_, ?_⟩
        · exact ⟨fun _ => evictable_nil_of_groups r hinf hfin, fun _ => rfl⟩
        · intro f hf
          cases hf
      · -- finite-distance group selection
        have hqmem : q ∈ LRUKReplacer.finGroup r := by
          rw [hfin]
          exact List.mem_cons_self q t
        obtain ⟨hqstore, hqev, hqlen⟩ := mem_finGroup.mp hqmem
        obtain ⟨s, hks⟩ := Option.isSome_iff_exists.mp (kthStamp_isSome hk hqlen)
        have hsome : ∀ a ∈ t, (LRUKReplacer.kthStamp r.k a.2).isSome = true := by
          intro a ha
          have hamem : a ∈ LRUKReplacer.finGroup r := by
            rw [hfin]
            exact List.mem_cons_of_mem q ha
          obtain ⟨_, _, halen⟩ := mem_finGroup.mp hamem
          exact kthStamp_isSome hk halen
        obtain ⟨m, ms, haux, hmem, hms, hle, hall⟩ :=
          maxByKthAux_spec t (r.current_timestamp + 1) r.k q s hks hsome
        have hmfin : m ∈ LRUKReplacer.finGroup r := by
          rw [hfin]
          rcases hmem with he | ht
          · exact he ▸ List.mem_cons_self q t
          · exact List.mem_cons_of_mem q ht
        obtain ⟨hmstore, hmev, hmlen⟩ := mem_finGroup.mp hmfin
        refine ⟨some m.1, _, evict_eq_of_finGroup_cons r q t hs hinf hfin s hks m haux,
          ?_, ?_⟩
        · constructor
          · intro h
            cases h
          · intro h
            exact absurd (mem_evictableNodes.mpr ⟨hmstore, hmev⟩)
              (by rw [h]; exact List.not_mem_nil m)
        · intro f hf
          have hfm : f = m.1 := by
            injection hf with h
            exact h.symm
          subst hfm
          refine ⟨m.2, ms, hmstore, hmev, fun hie => absurd rfl hie, ?_, ?_, ?_⟩
          · intro _
            refine ⟨hfin ▸ hmfin, hms, ?_⟩
            intro a ha sq hsq
            rcases List.mem_cons.mp ha with he | ht
            · rw [he] at hsq
              rw [hsq] at hks
              have := Option.some.inj hks
              omega
            · exact hall a ht sq hsq
          · show LRUKReplacer.storeFind
              (LRUKReplacer.storeModify r.node_store m.1
                (fun n => { n with history := [], is_evictable := false })) m.1 = _
            rw [storeFind_storeModify_self, storeFind_of_mem_nodup r.node_store m.1 m.2
              hmstore hnd]
            rfl
          · rfl
    · -- +∞ group selection
      have hpmem : p ∈ LRUKReplacer.infGroup r := by
        rw [hinf]
        exact List.mem_cons_self p t
      obtain ⟨hpstore, hpev, hplen⟩ := mem_infGroup.mp hpmem
      have hpne : p.2.history ≠ [] := hne p hpstore hpev
      obtain ⟨s, hgl⟩ := Option.isSome_iff_exists.mp (List.getLast?_isSome.mpr hpne)
      have hne' : ∀ a ∈ t, a.2.history ≠ [] := by
        intro a ha
        have hamem : a ∈ LRUKReplacer.infGroup r := by
          rw [hinf]
          exact List.mem_cons_of_mem p ha
        obtain ⟨hastore, haev, _⟩ := mem_infGroup.mp hamem
        exact hne a hastore haev
      obtain ⟨m, mb, haux, hmem, hmb, hle, hall⟩ := minByBackAux_spec t p s hgl hne'
      have hminf : m ∈ LRUKReplacer.infGroup r := by
        rw [hinf]
        rcases hmem with he | ht
        · exact he ▸ List.mem_cons_self p t
        · exact List.mem_cons_of_mem p ht
      obtain ⟨hmstore, hmev, hmlen⟩ := mem_infGroup.mp hminf
      refine ⟨some m.1, _, evict_eq_of_infGroup_cons r p t hs hinf s hgl m haux, ?_, ?_⟩
      · constructor
        · intro h
          cases h
        · intro h
          exact absurd (mem_evictableNodes.mpr ⟨hmstore, hmev⟩)
            (by rw [h]; exact List.not_mem_nil m)
      · intro f hf
        have hfm : f = m.1 := by
          injection hf with h
          exact h.symm
        subst hfm
        refine ⟨m.2, mb, hmstore, hmev, ?_, fun hie => absurd hie (List.cons_ne_nil p t), ?_, ?_⟩
        · intro _
          refine ⟨hinf ▸ hminf, hmb, ?_⟩
          intro a ha sq hsq
          rcases List.mem_cons.mp ha with he | ht
          · rw [he] at hsq
            rw [hsq] at hgl
            have := Option.some.inj hgl
            omega
          · exact hall a ht sq hsq
        · show LRUKReplacer.storeFind
            (LRUKReplacer.storeModify r.node_store m.1
              (fun n => { n with history := [], is_evictable := false })) m.1 = _
          rw [storeFind_storeModify_self, storeFind_of_mem_nodup r.node_store m.1 m.2
            hmstore hnd]
          rfl
        · rfl

/-- C2 (witness): the eviction contract applied to the concrete example
state (two frames, both evictable, k = 2), where it yields a victim. -/
theorem evict_contract_witness :
    1 ≤ exR5.k ∧ ∃ res r', exR5.Evict = some (res, r') ∧ res ≠ none := by
  obtain ⟨res, r', hev, hiff, _⟩ :=
    evict_contract.2 exR5 (by decide) (by decide) (by decide)
  refine ⟨by decide, res, r', hev, ?_⟩
  intro hn
  exact absurd (hiff.mp hn) (by decide)

/-- Unfolding of `evictCount` on a cons cell. -/
theorem evictCount_cons (p : Int × LRUKNode) (t : List (Int × LRUKNode)) :
    evictCount (p :: t) = (if p.2.is_evictable then 1 else 0) + evictCount t := by
  by_cases h : p.2.is_evictable <;> simp [evictCount, List.filter, h] <;> omega

/-- The evictable-node count of a replacer is `evictCount` of its store. -/
theorem evictableNodes_length (r : LRUKReplacer) :
    (LRUKReplacer.evictableNodes r).length = evictCount r.node_store := rfl

/-- `storeFind` misses exactly the keys that are not in the store. -/
theorem storeFind_eq_none_iff (s : List (Int × LRUKNode)) (fid : Int) :
    LRUKReplacer.storeFind s fid = none ↔ fid ∉ s.map Prod.fst := by
  induction s with
  | nil => simp [LRUKReplacer.storeFind]
  | cons p t ih =>
    by_cases h : p.1 = fid
    · simp [LRUKReplacer.storeFind, h]
    · simp only [LRUKReplacer.storeFind, if_neg h, List.map_cons, List.mem_cons]
      rw [ih]
      constructor
      · intro hn hor
        rcases hor with he | ht
        · exact h he.symm
        · exact hn ht
      · intro hn ht
        exact hn (Or.inr ht)

/-- `storeModify` does not change the stored keys. -/
theorem storeModify_map_fst (s : List (Int × LRUKNode)) (fid : Int)
    (g : LRUKNode → LRUKNode) :
    (LRUKReplacer.storeModify s fid g).map Prod.fst = s.map Prod.fst := by
  induction s with
  | nil => rfl
  | cons p t ih =>
    by_cases h : p.1 = fid <;> simp [LRUKReplacer.storeModify, h, ih]

/-- Modifying a key that is not stored is a no-op. -/
theorem storeModify_eq_of_not_mem (s : List (Int × LRUKNode)) (fid : Int)
    (g : LRUKNode → LRUKNode) (h : fid ∉ s.map Prod.fst) :
    LRUKReplacer.storeModify s fid g = s := by
  induction s with
  | nil => rfl
  | cons p t ih =>
    simp only [List.map_cons, List.mem_cons] at h
    push_neg at h
    have hne : ¬ p.1 = fid := fun he => h.1 he.symm
    simp only [LRUKReplacer.storeModify, if_neg hne]
    rw [ih h.2]

/-- Erasing a key that is not stored is a no-op. -/
theorem storeErase_eq_of_not_mem (s : List (Int × LRUKNode)) (fid : Int)
    (h : fid ∉ s.map Prod.fst) :
    LRUKReplacer.storeErase s fid = s := by
  induction s with
  | nil => rfl
  | cons p t ih =>
    simp only [List.map_cons, List.mem_cons] at h
    push_neg at h
    have hne : ¬ p.1 = fid := fun he => h.1 he.symm
    simp only [LRUKReplacer.storeErase, if_neg hne]
    rw [ih h.2]

/-- A flag-preserving modification keeps the evictable count. -/
theorem evictCount_storeModify_of_preserved (s : List (Int × LRUKNode)) (fid : Int)
    (g : LRUKNode → LRUKNode) (hg : ∀ n, (g n).is_evictable = n.is_evictable) :
    evictCount (LRUKReplacer.storeModify s fid g) = evictCount s := by
  induction s with
  | nil => rfl
  | cons p t ih =>
    by_cases h : p.1 = fid <;>
      simp [LRUKReplacer.storeModify, h, evictCount_cons, hg, ih]

/-- With unique keys, modifying the found node trades its old flag
contribution for the new one. -/
theorem evictCount_storeModify_nodup (s : List (Int × LRUKNode)) (fid : Int)
    (g : LRUKNode → LRUKNode) (n : LRUKNode)
    (hnd : (s.map Prod.fst).Nodup) (hfind : LRUKReplacer.storeFind s fid = some n) :
    evictCount (LRUKReplacer.storeModify s fid g) + (if n.is_evictable then 1 else 0) =
      evictCount s + (if (g n).is_evictable then 1 else 0) := by
  induction s with
  | nil => cases hfind
  | cons p t ih =>
    rw [List.map_cons, List.nodup_cons] at hnd
    obtain ⟨hh, ht⟩ := hnd
    by_cases h : p.1 = fid
    · have hn : n = p.2 := by
        simp only [LRUKReplacer.storeFind, if_pos h] at hfind
        exact (Option.some.inj hfind).symm
      subst hn
      have hmiss : fid ∉ t.map Prod.fst := h ▸ hh
      simp only [LRUKReplacer.storeModify, if_pos h,
        storeModify_eq_of_not_mem t fid g hmiss, evictCount_cons]
      omega
    · simp only [LRUKReplacer.storeFind, if_neg h] at hfind
      simp only [LRUKReplacer.storeModify, if_neg h, evictCount_cons]
      have := ih ht hfind
      omega

/-- With unique keys, erasing the found node removes its flag
contribution. -/
theorem evictCount_storeErase_nodup (s : List (Int × LRUKNode)) (fid : Int)
    (n : LRUKNode)
    (hnd : (s.map Prod.fst).Nodup) (hfind : LRUKReplacer.storeFind s fid = some n) :
    evictCount (LRUKReplacer.storeErase s fid) + (if n.is_evictable then 1 else 0) =
      evictCount s := by
  induction s with
  | nil => cases hfind
  | cons p t ih =>
    rw [List.map_cons, List.nodup_cons] at hnd
    obtain ⟨hh, ht⟩ := hnd
    by_cases h : p.1 = fid
    · have hn : n = p.2 := by
        simp only [LRUKReplacer.storeFind, if_pos h] at hfind
        exact (Option.some.inj hfind).symm
      subst hn
      have hmiss : fid ∉ t.map Prod.fst := h ▸ hh
      simp only [LRUKReplacer.storeErase, if_pos h,
        storeErase_eq_of_not_mem t fid hmiss, evictCount_cons]
      omega
    · simp only [LRUKReplacer.storeFind, if_neg h] at hfind
      simp only [LRUKReplacer.storeErase, if_neg h, evictCount_cons]
      have := ih ht hfind
      omega

/-- Erasure yields a sublist of the store. -/
theorem storeErase_sublist (s : List (Int × LRUKNode)) (fid : Int) :
    (LRUKReplacer.storeErase s fid).Sublist s := by
  induction s with
  | nil => exact List.Sublist.refl []
  | cons p t ih =>
    by_cases h : p.1 = fid
    · simp only [LRUKReplacer.storeErase, if_pos h]
      exact ih.cons p
    · simp only [LRUKReplacer.storeErase, if_neg h]
      exact ih.cons₂ p

/-- Appending in the order the constructor uses: evictCount distributes. -/
theorem evictCount_append (s₁ s₂ : List (Int × LRUKNode)) :
    evictCount (s₁ ++ s₂) = evictCount s₁ + evictCount s₂ := by
  simp [evictCount, List.filter_append]

/-- The `+∞`-group loop only ever returns the seed or a pool element. -/
theorem minByBackAux_mem :
    ∀ (t : List (Int × LRUKNode)) (best : Int × LRUKNode) (bb : Nat)
      (m : Int × LRUKNode),
      LRUKReplacer.minByBackAux best bb t = some m → m = best ∨ m ∈ t := by
  intro t
  induction t with
  | nil =>
    intro best bb m h
    exact Or.inl (Option.some.inj h).symm
  | cons p t ih =>
    intro best bb m h
    unfold LRUKReplacer.minByBackAux at h
    rcases hgl : p.2.history.getLast? with _ | s
    · rw [hgl] at h
      cases h
    · rw [hgl] at h
      simp only at h
      by_cases hlt : s < bb
      · rw [if_pos hlt] at h
        rcases ih p s m h with he | ht
        · exact Or.inr (he ▸ List.mem_cons_self p t)
        · exact Or.inr (List.mem_cons_of_mem p ht)
      · rw [if_neg hlt] at h
        rcases ih best bb m h with he | ht
        · exact Or.inl he
        · exact Or.inr (List.mem_cons_of_mem p ht)

/-- The finite-group loop only ever returns the seed or a pool element. -/
theorem maxByKthAux_mem :
    ∀ (t : List (Int × LRUKNode)) (ts k : Nat) (best : Int × LRUKNode)
      (bd : Nat) (m : Int × LRUKNode),
      LRUKReplacer.maxByKthAux ts k best bd t = some m → m = best ∨ m ∈ t := by
  intro t
  induction t with
  | nil =>
    intro ts k best bd m h
    exact Or.inl (Option.some.inj h).symm
  | cons p t ih =>
    intro ts k best bd m h
    unfold LRUKReplacer.maxByKthAux at h
    rcases hks : LRUKReplacer.kthStamp k p.2 with _ | s
    · rw [hks] at h
      cases h
    · rw [hks] at h
      simp only at h
      by_cases hgt : ts - s > bd
      · rw [if_pos hgt] at h
        rcases ih ts k p (ts - s) m h with he | ht
        · exact Or.inr (he ▸ List.mem_cons_self p t)
        · exact Or.inr (List.mem_cons_of_mem p ht)
      · rw [if_neg hgt] at h
        rcases ih ts k best bd m h with he | ht
        · exact Or.inl he
        · exact Or.inr (List.mem_cons_of_mem p ht)

/-- A defined `Evict` either leaves the store untouched (only the timestamp
moves) or clears an evictable stored victim. -/
theorem evict_cases (r : LRUKReplacer) (res : Option Int) (r' : LRUKReplacer)
    (h : r.Evict = some (res, r')) :
    r' = { r with current_timestamp := r.current_timestamp + 1 } ∨
    ∃ m : Int × LRUKNode,
      (m ∈ LRUKReplacer.infGroup r ∨ m ∈ LRUKReplacer.finGroup r) ∧
      r' = LRUKReplacer.clearVictim
        { r with current_timestamp := r.current_timestamp + 1 } m.1 := by
  by_cases hs : r.node_store = []
  · left
    simp only [LRUKReplacer.Evict] at h
    rw [if_pos (by simp only [List.isEmpty_iff]; exact hs)] at h
    exact (congrArg Prod.snd (Option.some.inj h)).symm
  · have hcond : ¬ (({ r with current_timestamp := r.current_timestamp + 1 }
        : LRUKReplacer).node_store.isEmpty = true) := by
      simp only [List.isEmpty_iff]
      exact hs
    rcases hinf : LRUKReplacer.infGroup r with _ | ⟨p, t⟩
    · rcases hfin : LRUKReplacer.finGroup r with _ | ⟨q, t⟩
      · left
        rw [evict_eq_of_no_evictable r hs hinf hfin] at h
        exact (congrArg Prod.snd (Option.some.inj h)).symm
      · simp only [LRUKReplacer.Evict] at h
        rw [if_neg hcond] at h
        have hinf1 : LRUKReplacer.infGroup
            { r with current_timestamp := r.current_timestamp + 1 } = [] := hinf
        have hfin1 : LRUKReplacer.finGroup
            { r with current_timestamp := r.current_timestamp + 1 } = q :: t := hfin
        simp only [hinf1, hfin1] at h
        rcases hks : LRUKReplacer.kthStamp r.k q.2 with _ | s
        · simp only [hks] at h
          cases h
        · simp only [hks] at h
          rcases haux : LRUKReplacer.maxByKthAux (r.current_timestamp + 1) r.k q
              (r.current_timestamp + 1 - s) t with _ | m
          · simp only [haux] at h
            cases h
          · simp only [haux] at h
            right
            refine ⟨m, Or.inr ?_, ?_⟩
            · rcases maxByKthAux_mem t _ _ q _ m haux with he | ht
              · exact he ▸ List.mem_cons_self q t
              · exact List.mem_cons_of_mem q ht
            · exact (congrArg Prod.snd (Option.some.inj h)).symm
    · simp only [LRUKReplacer.Evict] at h
      rw [if_neg hcond] at h
      have hinf1 : LRUKReplacer.infGroup
          { r with current_timestamp := r.current_timestamp + 1 } = p :: t := hinf
      simp only [hinf1] at h
      rcases hgl : p.2.history.getLast? with _ | s
      · simp only [hgl] at h
        cases h
      · simp only [hgl] at h
        rcases haux : LRUKReplacer.minByBackAux p s t with _ | m
        · simp only [haux] at h
          cases h
        · simp only [haux] at h
          right
          refine ⟨m, Or.inl ?_, ?_⟩
          · rcases minByBackAux_mem t p s m haux with he | ht
            · exact he ▸ List.mem_cons_self p t
            · exact List.mem_cons_of_mem p ht
          · exact (congrArg Prod.snd (Option.some.inj h)).symm

/-- Every defined operation preserves key uniqueness and the accounting
equation `curr_size_ = number of evictable stored frames`. -/
theorem inv_applyOp (r r' : LRUKReplacer) (op : LRUKReplacer.Op)
    (hnd : (r.node_store.map Prod.fst).Nodup)
    (hsz : r.curr_size = evictCount r.node_store)
    (h : LRUKReplacer.applyOp r op = some r') :
    (r'.node_store.map Prod.fst).Nodup ∧ r'.curr_size = evictCount r'.node_store := by
  cases op with
  | record fid =>
    have hr : r' = (r.RecordAccess fid).2 := (Option.some.inj h).symm
    subst hr
    by_cases herr : fid < 0 ∨ (r.replacer_size : Int) < fid
    · have he : (r.RecordAccess fid).2 =
          { r with current_timestamp := r.current_timestamp + 1 } := by
        unfold LRUKReplacer.RecordAccess
        simp [herr]
      rw [he]
      exact ⟨hnd, hsz⟩
    · rcases hfind : LRUKReplacer.storeFind r.node_store fid with _ | n
      · have he : (r.RecordAccess fid).2.node_store =
            LRUKReplacer.storeModify
              (r.node_store ++ [(fid, { fid := fid, history := [], is_evictable := false })])
              fid (fun n => { n with history := n.history ++ [r.current_timestamp + 1] }) := by
          unfold LRUKReplacer.RecordAccess
          simp [herr, hfind]
        have hc : (r.RecordAccess fid).2.curr_size = r.curr_size := by
          unfold LRUKReplacer.RecordAccess
          simp [herr, hfind]
        have hmiss : fid ∉ r.node_store.map Prod.fst :=
          (storeFind_eq_none_iff r.node_store fid).mp hfind
        constructor
        · rw [he, storeModify_map_fst, List.map_append, List.nodup_append]
          refine ⟨hnd, by simp, ?_⟩
          intro a ha hb
          simp only [List.map_cons, List.map_nil, List.mem_singleton] at hb
          subst hb
          exact hmiss ha
        · have hg : ∀ (n : LRUKNode),
              ({ n with history := n.history ++ [r.current_timestamp + 1] }
                : LRUKNode).is_evictable = n.is_evictable := fun n => rfl
          rw [he, hc, evictCount_storeModify_of_preserved _ _ _ hg, evictCount_append]
          have h1 : evictCount
              [((fid : Int), ({ fid := fid, history := [], is_evictable := false } : LRUKNode))] = 0 := rfl
          rw [h1, hsz]
          omega
      · have he : (r.RecordAccess fid).2.node_store =
            LRUKReplacer.storeModify r.node_store
              fid (fun n => { n with history := n.history ++ [r.current_timestamp + 1] }) := by
          unfold LRUKReplacer.RecordAccess
          simp [herr, hfind]
        have hc : (r.RecordAccess fid).2.curr_size = r.curr_size := by
          unfold LRUKReplacer.RecordAccess
          simp [herr, hfind]
        constructor
        · rw [he, storeModify_map_fst]
          exact hnd
        · have hg : ∀ (n : LRUKNode),
              ({ n with history := n.history ++ [r.current_timestamp + 1] }
                : LRUKNode).is_evictable = n.is_evictable := fun n => rfl
          rw [he, hc, evictCount_storeModify_of_preserved _ _ _ hg]
          exact hsz
  | setEvictable fid flag =>
    have hr : r' = (r.SetEvictable fid flag).2 := (Option.some.inj h).symm
    subst hr
    rcases hfind : LRUKReplacer.storeFind r.node_store fid with _ | n
    · have he : (r.SetEvictable fid flag).2 = r := by
        unfold LRUKReplacer.SetEvictable
        simp [hfind]
      rw [he]
      exact ⟨hnd, hsz⟩
    · have hstore : (r.SetEvictable fid flag).2.node_store =
          LRUKReplacer.storeModify r.node_store fid
            (fun m => { m with is_evictable := flag }) := by
        unfold LRUKReplacer.SetEvictable
        simp [hfind]
      have hsize : (r.SetEvictable fid flag).2.curr_size =
          (if n.is_evictable ∧ ¬ flag then r.curr_size - 1
           else if ¬ n.is_evictable ∧ flag then r.curr_size + 1
           else r.curr_size) := by
        unfold LRUKReplacer.SetEvictable
        simp [hfind]
      have hmod := evictCount_storeModify_nodup r.node_store fid
        (fun m => { m with is_evictable := flag }) n hnd hfind
      constructor
      · rw [hstore, storeModify_map_fst]
        exact hnd
      · rw [hstore, hsize]
        simp only [] at hmod
        by_cases hev : n.is_evictable = true
        · by_cases hfl : flag = true
          · rw [hev, hfl] at hmod ⊢
            simp at hmod ⊢
            omega
          · have hfl' : flag = false := by
              revert hfl
              cases flag <;> simp
            rw [hev, hfl'] at hmod ⊢
            simp at hmod ⊢
            omega
        · have hev' : n.is_evictable = false := by
            revert hev
            cases n.is_evictable <;> simp
          by_cases hfl : flag = true
          · rw [hev', hfl] at hmod ⊢
            simp at hmod ⊢
            omega
          · have hfl' : flag = false := by
              revert hfl
              cases flag <;> simp
            rw [hev', hfl'] at hmod ⊢
            simp at hmod ⊢
            omega
  | remove fid =>
    have hr : r' = r.Remove fid := (Option.some.inj h).symm
    subst hr
    rcases hfind : LRUKReplacer.storeFind r.node_store fid with _ | n
    · have he : r.Remove fid = r := by
        unfold LRUKReplacer.Remove
        simp [hfind]
      rw [he]
      exact ⟨hnd, hsz⟩
    · have hstore : (r.Remove fid).node_store = LRUKReplacer.storeErase r.node_store fid := by
        unfold LRUKReplacer.Remove
        simp [hfind]
      have hsize : (r.Remove fid).curr_size =
          (if n.is_evictable then r.curr_size - 1 else r.curr_size) := by
        unfold LRUKReplacer.Remove
        simp [hfind]
      have herase := evictCount_storeErase_nodup r.node_store fid n hnd hfind
      constructor
      · rw [hstore]
        exact ((storeErase_sublist r.node_store fid).map Prod.fst).nodup hnd
      · rw [hstore, hsize]
        by_cases hev : n.is_evictable = true
        · rw [hev] at herase ⊢
          simp at herase ⊢
          omega
        · have hev' : n.is_evictable = false := by
            revert hev
            cases n.is_evictable <;> simp
          rw [hev'] at herase ⊢
          simp at herase ⊢
          omega
  | evict =>
    simp only [LRUKReplacer.applyOp] at h
    rcases hev : r.Evict with _ | pr
    · rw [hev] at h
      cases h
    · rw [hev] at h
      obtain ⟨res, r''⟩ := pr
      have hr : r' = r'' := by
        simp only [Option.map] at h
        exact (Option.some.inj h).symm
      subst hr
      rcases evict_cases r res r' hev with hsame | ⟨m, hm, hclear⟩
      · rw [hsame]
        exact ⟨hnd, hsz⟩
      · have hmev : m.2.is_evictable = true := by
          rcases hm with hi | hf
          · exact (mem_infGroup.mp hi).2.1
          · exact (mem_finGroup.mp hf).2.1
        have hmstore : m ∈ r.node_store := by
          rcases hm with hi | hf
          · exact (mem_infGroup.mp hi).1
          · exact (mem_finGroup.mp hf).1
        have hfind : LRUKReplacer.storeFind r.node_store m.1 = some m.2 :=
          storeFind_of_mem_nodup r.node_store m.1 m.2 hmstore hnd
        have hmod := evictCount_storeModify_nodup r.node_store m.1
          (fun n => { n with history := [], is_evictable := false }) m.2 hnd hfind
        rw [hclear]
        constructor
        · show (((LRUKReplacer.storeModify r.node_store m.1
            (fun n => { n with history := [], is_evictable := false }))).map Prod.fst).Nodup
          rw [storeModify_map_fst]
          exact hnd
        · show r.curr_size - 1 = evictCount (LRUKReplacer.storeModify r.node_store m.1
            (fun n => { n with history := [], is_evictable := false }))
          simp [hmev] at hmod
          omega

/-- The invariant carries over any defined operation sequence. -/
theorem inv_runOps :
    ∀ (ops : List LRUKReplacer.Op) (r r' : LRUKReplacer),
      (r.node_store.map Prod.fst).Nodup →
      r.curr_size = evictCount r.node_store →
      LRUKReplacer.runOps r ops = some r' →
      (r'.node_store.map Prod.fst).Nodup ∧ r'.curr_size = evictCount r'.node_store := by
  intro ops
  induction ops with
  | nil =>
    intro r r' hnd hsz h
    have : r = r' := Option.some.inj h
    subst this
    exact ⟨hnd, hsz⟩
  | cons op ops ih =>
    intro r r' hnd hsz h
    unfold LRUKReplacer.runOps at h
    rcases hap : LRUKReplacer.applyOp r op with _ | r₁
    · rw [hap] at h
      cases h
    · rw [hap] at h
      obtain ⟨hnd₁, hsz₁⟩ := inv_applyOp r r₁ op hnd hsz hap
      exact ih r₁ r' hnd₁ hsz₁ h

/-- C8: after any defined sequence of `RecordAccess`, `SetEvictable`,
`Evict` and `Remove` operations starting from a freshly constructed
replacer, `Size()` equals the number of frames currently marked evictable
in the node store. -/
theorem size_counts_evictable (num_frames k : Nat) (ops : List LRUKReplacer.Op)
    (r' : LRUKReplacer)
    (h : LRUKReplacer.runOps (LRUKReplacer.new num_frames k) ops = some r') :
    r'.Size = (LRUKReplacer.evictableNodes r').length := by
  have h0nd : (((LRUKReplacer.new num_frames k).node_store.map Prod.fst)).Nodup := by
    have he : ((LRUKReplacer.new num_frames k).node_store.map Prod.fst) =
        (List.range num_frames).map (fun (i : Nat) => (i : Int)) := by
      show (((List.range num_frames).map
        (fun (i : Nat) => ((i : Int),
          ({ fid := (i : Int), history := [], is_evictable := false } : LRUKNode)))).map
            Prod.fst) = _
      rw [List.map_map]
      rfl
    rw [he]
    exact List.Nodup.map (fun a b hab => by exact_mod_cast hab) (List.nodup_range _)
  have h0sz : (LRUKReplacer.new num_frames k).curr_size =
      evictCount (LRUKReplacer.new num_frames k).node_store := by
    have h1 : evictCount (LRUKReplacer.new num_frames k).node_store = 0 := by
      simp [LRUKReplacer.new, evictCount, List.filter_map]
    rw [h1]
    rfl
  rw [evictableNodes_length, LRUKReplacer.Size]
  exact (inv_runOps ops _ r' h0nd h0sz h).2

/-- C8 (witness): a concrete run (two frames accessed and made evictable,
one eviction, one removal, one flag clear) after which `Size` matches the
evictable count. -/
theorem size_counts_evictable_witness :
    LRUKReplacer.runOps (LRUKReplacer.new 3 2) c8ops = some c8final ∧
    c8final.Size = (LRUKReplacer.evictableNodes c8final).length := by
  refine ⟨by decide, size_counts_evictable 3 2 c8ops c8final (by decide)⟩
